import Mathlib

/-!
Verification of the zipadee core: the streaming HTML template engine
(`html.ts`), the middleware composer and path mounting (`middleware.ts`),
and the dispatch loop's fault path (`app.ts`).

JavaScript strings are modelled as Lean `String`s, with the character-level
operations written out over `String.data` (lists of characters) so that every
definition is executable and kernel-reducible.  Mutable per-request state
(the request's logical path, the response log, the per-wrapper `called`
flags of `compose`) is passed explicitly.
-/

namespace Zipadee

/-! ## Characters and JS-style string helpers -/

/-- The space/tab class `[ \t]` used by `indentRegex` and `fixIndent`. -/
def isSpaceTab (c : Char) : Bool := c = ' ' || c = '\t'

/-- The JS `\S` class (not whitespace), restricted to the ASCII whitespace
characters that can occur in template literals. -/
def isJsNonSpace (c : Char) : Bool :=
  !(c = ' ' || c = '\t' || c = '\n' || c = '\r' || c = '\x0b' || c = '\x0c')

/-- `path.startsWith(pre)`. -/
def jsStartsWith (s pre : String) : Bool := List.isPrefixOf pre.data s.data

/-- `s.substring(n)` / `s.drop(n)` counted in characters. -/
def jsDrop (s : String) (n : Nat) : String := ⟨s.data.drop n⟩

/-- `s.length` counted in characters. -/
def jsLength (s : String) : Nat := s.data.length

/-! ## `escape` (html.ts)

`export const escape = (str) => str.replaceAll(/[&<>"']/g, replacer)` with the
`replacements` table.  A single-character-class `replaceAll` is exactly a
per-character substitution.  Note that the source maps the apostrophe
(code point 0x27) to `&apos` with no trailing semicolon. -/

/-- The character `'` (0x27), written via its code point. -/
def apostropheChar : Char := Char.ofNat 39

/-- One entry lookup in the `replacements` table; characters outside the
class `[&<>"']` are left unchanged. -/
def escapeChar (c : Char) : String :=
  if c = '&' then "&amp;"
  else if c = '<' then "&lt;"
  else if c = '>' then "&gt;"
  else if c = '"' then "&quot;"
  else if c = apostropheChar then "&apos"
  else String.singleton c

def escapeList : List Char → String
  | [] => ""
  | c :: cs => escapeChar c ++ escapeList cs

/-- `escape` from html.ts. -/
def escape (s : String) : String := escapeList s.data

/-! ## `matchPath` (middleware.ts) -/

/-- `matchPath(prefix, path)`: `Option String` models `string | false`.
The source reads, in order: the `startsWith` test, the empty-suffix case,
the `prefix.at(-1) === '/'` case (which returns `'/' + subPath`), and the
`subPath[0] !== '/'` rejection. -/
def matchPath (pre path : String) : Option String :=
  if !(jsStartsWith path pre) then none
  else
    let subPath := jsDrop path (jsLength pre)
    if subPath = "" then some "/"
    else if pre.data.getLast? = some '/' then some ("/" ++ subPath)
    else if subPath.data.head? ≠ some '/' then none
    else some subPath

/-! ## Middleware composition (middleware.ts)

A middleware mutates the response (modelled as a `log` of written tokens) and
the request's logical `path`, and may invoke its continue callback (`next`).
The per-wrapper `let called = false` closure variables of `compose` are
modelled as an explicit map `called : Nat → Bool` indexed by chain position,
initialised afresh on each invocation of the composed function — exactly the
lifetime of the closures, which are created inside the returned async
function.  Exceptions (`throw new Error(...)`) are modelled with `Except`. -/

/-- The observable per-request state threaded through a middleware chain. -/
structure ChainState where
  log : List String
  called : Nat → Bool
  path : String

/-- The type of a continue callback (`NextFunction`). -/
abbrev NextFn := ChainState → Except String ChainState

/-- A middleware: receives its continue callback and the state. -/
abbrev MW := NextFn → ChainState → Except String ChainState

/-- The error message thrown by the double-invocation guard in `compose`. -/
def doubleNextMsg : String := "next() called more than once"

/-- A small syntax for concrete middleware bodies: write a token to the
response, invoke `next()` once, or record the current logical path (used to
observe `req.path` at a program point). -/
inductive MAction where
  | write (token : String)
  | callNext
  | logPath
deriving DecidableEq

/-- A middleware body: a finite sequence of actions run in order.  An
exception raised by `next()` propagates (there is no try/catch), skipping the
remaining actions, exactly as an un-handled rejection skips the rest of an
async function. -/
abbrev MProg := List MAction

/-- Run a middleware body with a given continue callback. -/
def runProg : MProg → NextFn → ChainState → Except String ChainState
  | [], _, s => Except.ok s
  | MAction.write t :: rest, next, s =>
      runProg rest next { s with log := s.log ++ [t] }
  | MAction.callNext :: rest, next, s =>
      match next s with
      | Except.ok s' => runProg rest next s'
      | Except.error e => Except.error e
  | MAction.logPath :: rest, next, s =>
      runProg rest next { s with log := s.log ++ [s.path] }

/-- A middleware body as a middleware. -/
def progMW (p : MProg) : MW := fun next s => runProg p next s

/-- The chain of wrapped continue callbacks built by `compose`'s loop.  The
source iterates `middleware.toReversed()`, wrapping each middleware `fn` in
a callback that checks and sets its own `called` flag and then runs `fn`
with the previously built (downstream) callback; the terminal `next`
supplied by the caller of the composed function is NOT wrapped.  Building
from the head of the list with position index `k` produces the same nesting:
the callback for position `k` runs middleware `k` with the callback for
position `k+1`, ending in the terminal callback. -/
def buildNext : List MW → Nat → NextFn → NextFn
  | [], _, terminal => terminal
  | m :: ms, k, terminal => fun s =>
      if s.called k then Except.error doubleNextMsg
      else m (buildNext ms (k + 1) terminal)
             { s with called := fun i => if i = k then true else s.called i }

/-- `compose(...middleware)`: the composed middleware.  Fresh `called` flags
are created on every invocation, then the outermost wrapped callback is
invoked once (`await next()`). -/
def compose (ms : List MW) : MW := fun terminal s =>
  buildNext ms 0 terminal { s with called := fun _ => false }

/-- The terminal continue the App passes to the composed middleware:
`async () => {}`. -/
def terminalOk : NextFn := fun s => Except.ok s

/-- Invoke a composed chain on a given request path with an empty response
log, observing the final log and final logical path. -/
def runChainOn (ms : List MW) (p : String) :
    Except String (List String × String) :=
  (compose ms terminalOk ⟨[], fun _ => false, p⟩).map fun s => (s.log, s.path)

/-- Invoke a composed chain, observing only the response log. -/
def runChainLog (ms : List MW) : Except String (List String) :=
  (runChainOn ms "/").map Prod.fst

/-! ## `mount` (middleware.ts) -/

/-- `mount(prefix, middleware)`.  On a match the logical path is overwritten
with the remainder subpath; the wrapped middleware gets a continue callback
that restores the original path, calls the outer `next`, and re-installs the
subpath when it returns; after the wrapped middleware itself returns, the
original path is restored.  On no match the outer `next` is invoked with the
path untouched.  An exception propagates without the subsequent restore,
matching the absence of try/finally in the source. -/
def mount (pre : String) (mw : MW) : MW := fun next s =>
  let originalPath := s.path
  match matchPath pre originalPath with
  | some subpath =>
      match mw (fun s1 =>
          match next { s1 with path := originalPath } with
          | Except.ok s2 => Except.ok { s2 with path := subpath }
          | Except.error e => Except.error e)
        { s with path := subpath } with
      | Except.ok s3 => Except.ok { s3 with path := originalPath }
      | Except.error e => Except.error e
  | none => next s

/-! ## Template engine data model (html.ts)

`html` stores the literal segments and the interpolated values unrendered.
A value is `null`/`undefined`, a plain string, a nested template
(`HTMLPartial`), an array (finite iterables behave identically in every
render path and are folded into this case), an `UnsafeHTML` wrapper, any
other value (carried as its `String(value)` coercion), or a pending
promise of a value. -/

inductive HValue where
  | vnull
  | vstr (s : String)
  | vtpl (strings : List String) (values : List HValue)
  | varr (vs : List HValue)
  | vraw (s : String)
  | vother (s : String)
  | vpromise (v : HValue)

/-- One element of the lazy render sequence: a finished string, or a pending
promise yielded as-is for the consumer to await. -/
inductive Chunk where
  | str (s : String)
  | pending (v : HValue)

/-! ## The indentation machinery of `toString` (html.ts)

`indentRegex = /(?:\n)([ \t]*)(?:\S)/g`, used once per literal segment via
`indentRegex.exec(string)`: the first position where a newline is followed
by a (possibly empty) run of spaces/tabs and then a non-whitespace
character; the captured group is that run. -/

/-- `indentRegex.exec` on a character list: scan for the first `\n` whose
following space/tab run is terminated by a non-whitespace character, and
return the run's length.  On a failed attempt the regex engine moves on to
the next newline. -/
def firstIndentMatchAux : List Char → Option Nat
  | [] => none
  | c :: cs =>
    if c = '\n' then
      match List.span isSpaceTab cs with
      | (run, d :: _) =>
          if isJsNonSpace d then some run.length else firstIndentMatchAux cs
      | (_, []) => firstIndentMatchAux cs
    else firstIndentMatchAux cs

def firstIndentMatch (s : String) : Option Nat := firstIndentMatchAux s.data

/-- The `minIndent` loop of `HTMLPartial.toString`: the minimum over all
literal segments of the segment's first matched indentation, `none` playing
the role of `Infinity`.  (The source's `Math.min(minIndent,
...match.map((m) => m.length))` also throws in the length of the full match
`\n<indent><char>`, which is always two more than the group's length and so
never affects the minimum.) -/
def computeMinIndent (strings : List String) : Option Nat :=
  strings.foldl
    (fun acc s =>
      match firstIndentMatch s with
      | none => acc
      | some n =>
          match acc with
          | none => some n
          | some m => some (min m n))
    none

/-- Split at `'\n'`, keeping empty lines and the (possibly empty) final
segment, mirroring the per-line behaviour of `^...`/`m` on a string whose
only line terminators are `\n`. -/
def splitLines : List Char → List (List Char)
  | [] => [[]]
  | c :: cs =>
    if c = '\n' then [] :: splitLines cs
    else
      match splitLines cs with
      | l :: ls => (c :: l) :: ls
      | [] => [[c]]

def joinLines : List (List Char) → List Char
  | [] => []
  | [l] => l
  | l :: ls => l ++ '\n' :: joinLines ls

/-- `{0,m}` on `[ \t]`: greedily drop up to `m` leading spaces/tabs. -/
def stripUpTo : Nat → List Char → List Char
  | 0, cs => cs
  | _ + 1, [] => []
  | m + 1, c :: cs => if isSpaceTab c then stripUpTo m cs else c :: cs

/-- `fixIndent(remove, add, s) = s.replaceAll(new RegExp("^[ \\t]{0,remove}",
"gm"), " ".repeat(add))`.  Every line (including empty ones and the segment
after a final newline) has up to `remove` leading whitespace columns
stripped and `add` spaces prepended.  When `remove` is `Infinity` (`none`),
the interpolated `RegExp` source `^[ \t]{0,Infinity}` contains an invalid
braced quantifier, which JavaScript parses as the literal characters
`{0,Infinity}`; the resulting pattern matches nothing in template text, so
the string is returned unchanged. -/
def fixIndent (remove : Option Nat) (add : Nat) (s : String) : String :=
  match remove with
  | none => s
  | some m =>
    ⟨joinLines ((splitLines s.data).map
        fun line => List.replicate add ' ' ++ stripUpTo m line)⟩

/-! ## `HTMLPartial.toString` and the value coercion `toString(v, indent)` -/

mutual

/-- The value coercion `toString(v, currentIndent)` of html.ts: null-ish
values erase, strings are escaped, nested templates recurse at the current
indent, arrays and other iterables are mapped and joined, `UnsafeHTML`
passes its raw string, and anything else is `String(value)` escaped (a
promise stringifies as `[object Promise]`, since the synchronous path has
no thenable case). -/
def toStrValue : HValue → Nat → String
  | .vnull, _ => ""
  | .vstr s, _ => escape s
  | .vtpl ss vs, ind => toStrTpl ss vs ind
  | .varr vs, _ => toStrList vs 0
  | .vraw s, _ => s
  | .vother s, _ => escape s
  | .vpromise _, _ => escape "[object Promise]"
termination_by v _ => sizeOf v

/-- `Array.from(v).map(toString).join('')`: `Array.prototype.map` passes the
element index as `toString`'s second argument, so each array element is
stringified at `currentIndent = its own index`. -/
def toStrList : List HValue → Nat → String
  | [], _ => ""
  | v :: vs, i => toStrValue v i ++ toStrList vs (i + 1)
termination_by vs _ => sizeOf vs

/-- `HTMLPartial.toString(indent)`: compute `minIndent` once over all
literal segments, emit `strings[0]` re-indented, then alternate coerced
values and re-indented following segments.  (The source indexes
`strings[0]` unconditionally; the template-tag invariant `strings.length =
values.length + 1` rules out the empty case.) -/
def toStrTpl : List String → List HValue → Nat → String
  | [], _, _ => ""
  | s0 :: rest, vs, indent =>
      fixIndent (computeMinIndent (s0 :: rest)) indent s0 ++
        toStrGo (computeMinIndent (s0 :: rest)) indent s0 rest vs indent
termination_by ss vs _ => sizeOf ss + sizeOf vs

/-- The body of the `for` loop of `toString`: before coercing value `i`, the
current indent is recomputed from the segment preceding the value
(`strings[i]`) if that segment has an indentation match — as `match[1].length
- minIndent + indent`, where the global minimum is at most this segment's
match so the subtraction never underflows — and carries over unchanged
otherwise. -/
def toStrGo (minInd : Option Nat) (indent : Nat) :
    String → List String → List HValue → Nat → String
  | _, _, [], _ => ""
  | _, [], _ :: _, _ => ""
  | prev, s1 :: rest, v :: vs, cur =>
      let cur' :=
        match firstIndentMatch prev with
        | some n => n - minInd.getD 0 + indent
        | none => cur
      toStrValue v cur' ++ fixIndent minInd indent s1 ++
        toStrGo minInd indent s1 rest vs cur'
termination_by _ _ vals _ => sizeOf vals

end

/-! ## The iteration protocol, stack-machine version (html.ts)

`HTMLPartial[Symbol.iterator]()` returns `new HTMLIterator(partial)`, whose
`next()` drives an explicit stack of `html`/`array`/`iterable` frames.  The
functions below produce the full chunk sequence of that traversal.  In an
`html` frame a running index walks the conceptually zipped lists: even
indices yield the literal segments verbatim; the frame's done test, run at
odd indices, is `done = index > container.values.length` on the RUNNING
index, so the frame pops at the first odd index `2*i + 1` exceeding
`values.length` — for a frame with two or more values this truncates the
traversal (a two-value frame yields only `strings[0], values[0],
strings[1]`).  A surviving odd index classifies the value: `null` becomes
`''`, a string is yielded as-is (the source's string branch is literally
`// Do nothing` — no escaping), a nested template or array/iterable pushes a
frame, an `UnsafeHTML` yields its raw string, a thenable is yielded as-is,
and anything else is `String(value)` (again un-escaped).  Array frames use
`done = index >= container.length` and are not truncated. -/

mutual

def iterValueA : HValue → List Chunk
  | .vnull => [Chunk.str ""]
  | .vstr s => [Chunk.str s]
  | .vtpl ss vs => iterZipAGo vs.length 0 ss vs
  | .varr vs => iterListA vs
  | .vraw s => [Chunk.str s]
  | .vother s => [Chunk.str s]
  | .vpromise v => [Chunk.pending v]
termination_by v => sizeOf v

def iterListA : List HValue → List Chunk
  | [] => []
  | v :: vs => iterValueA v ++ iterListA vs
termination_by vs => sizeOf vs

/-- The `html` frame from pair index `i` on (the machine's running index is
`2*i`); `n` is the frame's total `values.length`, consulted by the done test
`index > container.values.length` at the odd running index `2*i + 1`.  The
two fallback cases read an out-of-range `strings[i]` or `values[i]` and are
unreachable under the template-tag invariant
`strings.length = values.length + 1`. -/
def iterZipAGo (n : Nat) : Nat → List String → List HValue → List Chunk
  | _, [], _ => []
  | i, s :: ss, vs =>
      Chunk.str s ::
        (if 2 * i + 1 > n then []
         else
           match vs with
           | v :: vs' => iterValueA v ++ iterZipAGo n (i + 1) ss vs'
           | [] => [])
termination_by _ ss vs => sizeOf ss + sizeOf vs

end

/-- The full chunk sequence of `new HTMLIterator(partial)`: the `html` frame
of the node started at running index 0. -/
def iterZipA (ss : List String) (vs : List HValue) : List Chunk :=
  iterZipAGo vs.length 0 ss vs

/-! ## The iteration protocol, generator version (html.ts)

The generator-based `*[Symbol.iterator]()` with `yieldValue`: identical
traversal order, but plain strings and `String(value)` coercions are passed
through `escape` before being yielded. -/

mutual

def yieldValueC : HValue → List Chunk
  | .vnull => [Chunk.str ""]
  | .vstr s => [Chunk.str (escape s)]
  | .vtpl ss vs => iterZipC ss vs
  | .varr vs => iterListC vs
  | .vraw s => [Chunk.str s]
  | .vother s => [Chunk.str (escape s)]
  | .vpromise v => [Chunk.pending v]
termination_by v => sizeOf v

def iterListC : List HValue → List Chunk
  | [] => []
  | v :: vs => yieldValueC v ++ iterListC vs
termination_by vs => sizeOf vs

def iterZipC : List String → List HValue → List Chunk
  | [], _ => []
  | s :: _, [] => [Chunk.str s]
  | s :: ss, v :: vs => Chunk.str s :: (yieldValueC v ++ iterZipC ss vs)
termination_by ss vs => sizeOf ss + sizeOf vs

end

/-- Concatenation of the finished string chunks of a render sequence
(`collectResult` restricted to the synchronous case: on a node with no
asynchronous values no `pending` chunk ever occurs, so this is exactly the
flattened concatenation). -/
def chunkStr : List Chunk → String
  | [] => ""
  | Chunk.str s :: cs => s ++ chunkStr cs
  | Chunk.pending _ :: cs => chunkStr cs

mutual

/-- `true` iff the value contains no pending (asynchronous) value — the
hypothesis of the structural round-trip property. -/
def noAsync : HValue → Bool
  | .vnull => true
  | .vstr _ => true
  | .vtpl _ vs => noAsyncList vs
  | .varr vs => noAsyncList vs
  | .vraw _ => true
  | .vother _ => true
  | .vpromise _ => false

def noAsyncList : List HValue → Bool
  | [] => true
  | v :: vs => noAsync v && noAsyncList vs

end

/-! ## The dispatch loop's fault path (app.ts)

The `catch` block of `App`'s request callback, as a pure function of the
thrown error and the response state at the moment of the throw.  The
`ServerResponse` is modelled by its status code, a headers-sent flag, the
Content-Type header, and the list of chunks written so far; `console.error`
diagnostics have no effect on the response and are omitted. -/

structure ServerRes where
  statusCode : Nat
  headersSent : Bool
  contentType : Option String
  written : List String
  ended : Bool
deriving DecidableEq

/-- A thrown error: an `HttpError` carries a status, a public message and
optional private message and stack; anything else carries a message and an
optional stack. -/
inductive AppFault where
  | httpError (status : Nat) (message : String)
      (privateMessage : Option String) (stack : Option String)
  | other (message : String) (stack : Option String)

/-- The `catch` block: for an `HttpError`, assign its status and write its
public message, appending the private message and stack in dev mode; for any
other error, assign status 500 and, in dev mode, set a plain-text
Content-Type and write the diagnostic body.  No branch consults
`headersSent`. -/
def handleFault (dev : Bool) (e : AppFault) (res : ServerRes) : ServerRes :=
  match e with
  | .httpError st msg priv stack =>
      let r1 := { res with statusCode := st, written := res.written ++ [msg] }
      let r2 :=
        if dev then
          let ra :=
            match priv with
            | some p => { r1 with written := r1.written ++ ["\n" ++ p] }
            | none => r1
          match stack with
          | some st2 => { ra with written := ra.written ++ ["\n" ++ st2] }
          | none => ra
        else r1
      r2
  | .other msg stack =>
      let r1 := { res with statusCode := 500 }
      if dev then
        { r1 with
          contentType := some "text/plain; charset=utf-8",
          written := r1.written ++
            ["Internal Server Error\n\n" ++ msg ++ "\n\n" ++
              (stack.getD "undefined")] }
      else r1

/-- The fault path of the request callback: the `catch` block followed by
the unconditional `response.baseResponse.end()`. -/
def appFaultPath (dev : Bool) (e : AppFault) (res : ServerRes) : ServerRes :=
  let r := handleFault dev e res
  { r with ended := true }

/-! ## Auxiliary definitions for the composition and template theorems -/

/-- The number of `next()` invocations a middleware body performs. -/
def countNext : MProg → Nat
  | [] => 0
  | MAction.callNext :: rest => countNext rest + 1
  | _ :: rest => countNext rest

/-- A pass-through middleware body: `next()` only. -/
def passP : MProg := [MAction.callNext]

/-- A middleware body that invokes its continue callback twice. -/
def doubleP : MProg := [MAction.callNext, MAction.callNext]

/-- All `called` flags at chain positions ≥ `k` are still unset. -/
def FreshFrom (k : Nat) (s : ChainState) : Prop :=
  ∀ i, k ≤ i → s.called i = false

/-- A continue callback whose only possible failure is the double-invocation
message. -/
def OnlyErr (f : NextFn) : Prop :=
  ∀ s e, f s = Except.error e → e = doubleNextMsg

/-- A continue callback that never clears a `called` flag. -/
def MonoNext (f : NextFn) : Prop :=
  ∀ s s', f s = Except.ok s' → ∀ i, s.called i = true → s'.called i = true

/-- Invoke the single function returned by `compose` `n` times in
succession (one invocation per request), threading the state. -/
def iterateCompose (ms : List MW) : Nat → ChainState → Except String ChainState
  | 0, s => Except.ok s
  | n + 1, s =>
      match compose ms terminalOk s with
      | Except.ok s' => iterateCompose ms n s'
      | Except.error e => Except.error e

/-! The class of template nodes on which the string-rendering path and the
lazy-sequence path coincide: no asynchronous values, no plain-string or
`String(value)`-coerced values (which `toString` escapes but the
`HTMLIterator` emits raw), no literal segment with an indentation match
(so `toString`'s indent rewriting is the identity), and at most one value
per template frame (for two or more values the `HTMLIterator`'s done test
`index > container.values.length` truncates the traversal, while `toString`
renders everything). -/

mutual

inductive RTSafeV : HValue → Prop where
  | null : RTSafeV HValue.vnull
  | raw (s : String) : RTSafeV (HValue.vraw s)
  | tpl (ss : List String) (vs : List HValue) :
      (∀ s ∈ ss, firstIndentMatch s = none) →
      ss.length = vs.length + 1 →
      vs.length ≤ 1 →
      RTSafeL vs → RTSafeV (HValue.vtpl ss vs)
  | arr (vs : List HValue) : RTSafeL vs → RTSafeV (HValue.varr vs)

inductive RTSafeL : List HValue → Prop where
  | nil : RTSafeL []
  | cons {v : HValue} {vs : List HValue} :
      RTSafeV v → RTSafeL vs → RTSafeL (v :: vs)

end

/-! Spec-side formalisation of the indent minimum, for comparison with the
code's `computeMinIndent`. -/

/-- Every indentation match in a segment: the space/tab run of each
newline-preceded line whose first following character is non-whitespace —
"every non-empty line". -/
def allIndentMatchesAux : List Char → List Nat
  | [] => []
  | c :: cs =>
    if c = '\n' then
      match List.span isSpaceTab cs with
      | (run, d :: _) =>
          if isJsNonSpace d then run.length :: allIndentMatchesAux cs
          else allIndentMatchesAux cs
      | (_, []) => allIndentMatchesAux cs
    else allIndentMatchesAux cs

def allIndentMatches (s : String) : List Nat := allIndentMatchesAux s.data

/-- The minimum of a list of naturals, `none` when empty. -/
def minNatList : List Nat → Option Nat
  | [] => none
  | n :: ns =>
      match minNatList ns with
      | none => some n
      | some m => some (min n m)

/-- Modelled from the spec: "the minimum leading whitespace of every
non-empty line across all literal segments (scanning for the first
non-whitespace character after each newline)". -/
def specMinIndentAllLines (strings : List String) : Option Nat :=
  minNatList (strings.map allIndentMatches).flatten

/-- The combination `Math.min` performs on an accumulator and a new partial
minimum, with `none` as `Infinity`. -/
def combineMin : Option Nat → Option Nat → Option Nat
  | none, r => r
  | some m, none => some m
  | some m, some n => some (min m n)

/-! ## Cross-checks against the behaviour asserted by the repository's own
test suite (middleware_test, html_test). -/

example :
    runChainLog
      [progMW [.write "A1", .callNext, .write "A2"],
       progMW [.write "B1", .callNext, .write "B2"],
       progMW [.write "C"]] = Except.ok ["A1", "B1", "C", "B2", "A2"] := rfl

example :
    runChainLog [progMW [.callNext, .callNext]] = Except.ok [] := rfl

example :
    runChainLog [progMW [.callNext, .callNext], progMW []] =
      Except.error doubleNextMsg := rfl

example :
    runChainOn
      [progMW [.logPath, .callNext, .logPath],
       mount "/foo/" (progMW [.logPath, .callNext, .logPath]),
       progMW [.logPath]] "/foo/bar" =
    Except.ok (["/foo/bar", "/bar", "/foo/bar", "/bar", "/foo/bar"],
               "/foo/bar") := rfl

example : matchPath "/foo" "/foo" = some "/" := by decide
example : matchPath "/foo" "/foo/" = some "/" := by decide
example : matchPath "/foo" "/foo/bar" = some "/bar" := by decide
example : matchPath "/foo" "/foobar" = none := by decide
example : matchPath "/foo/" "/foo" = none := by decide
example : matchPath "/foo/" "/foo/bar" = some "/bar" := by decide
example : escape "a<b>&\"" = "a&lt;b&gt;&amp;&quot;" := by decide
example : escape "\x27" = "&apos" := by decide

example : toStrTpl ["Hello World!"] [] 0 = "Hello World!" := by
  simp [toStrTpl, toStrGo]
  decide

example :
    toStrTpl ["\n      <h1>Hello World!</h1>\n    "] [] 0 =
      "\n<h1>Hello World!</h1>\n" := by
  simp [toStrTpl, toStrGo]
  decide

example :
    toStrTpl ["\n      <h1>Hello World!</h1>\n        ", "\n    "]
      [HValue.vtpl ["<p>Foo</p>"] []] 0 =
      "\n<h1>Hello World!</h1>\n  <p>Foo</p>\n" := by
  simp [toStrTpl, toStrGo, toStrValue]
  decide

example :
    iterZipA ["<h1>Hello ", "!</h1>"] [HValue.vstr "World"] =
      [Chunk.str "<h1>Hello ", Chunk.str "World", Chunk.str "!</h1>"] := by
  simp [iterZipA, iterZipAGo, iterValueA]

/-! Hand-traced behaviour of `HTMLIterator.next` on a two-value frame (not
covered by the test suite, whose iteration tests use one value per frame):
the done test `index > container.values.length` fires at running index 3,
so `values[1]` and `strings[2]` are never yielded, while `toString` renders
the whole node. -/

example :
    chunkStr (iterZipA ["a", "b", "c"] [HValue.vnull, HValue.vnull]) = "ab" ∧
    toStrTpl ["a", "b", "c"] [HValue.vnull, HValue.vnull] 0 = "abc" := by
  constructor
  · simp [iterZipA, iterZipAGo, iterValueA, chunkStr]
  · simp [toStrTpl, toStrGo, toStrValue]
    decide


/-! ## First batch of claim theorems -/

/-- C3: the `escape` function, evaluated on the five special characters and
on ordinary text.  The first four characters map to their named HTML
entities; the apostrophe maps to `&apos` WITHOUT the terminating semicolon
(the `replacements` table in html.ts reads `"'": '&apos'`), so the output is
not the named entity `&apos;` the documentation and spec describe. -/
theorem C3_escape_eval :
    escape "&" = "&amp;" ∧
    escape "<" = "&lt;" ∧
    escape ">" = "&gt;" ∧
    escape "\"" = "&quot;" ∧
    escape "\x27" = "&apos" ∧
    escape "hello world." = "hello world." := by
  decide

/-- C1: traversing a template via the iteration protocol (`HTMLIterator`,
the `[Symbol.iterator]` of html.ts) yields the interpolated plain string
`<World>` raw — its string branch is literally `// Do nothing` — while the
generator-based `yieldValue` path and `toString` escape it; unsafe-marked
values are passed through raw and literal segments are never escaped in
either path. -/
theorem C1_iterator_unescaped :
    iterZipA ["<h1>Hello ", "!</h1>"] [HValue.vstr "<World>"] =
      [Chunk.str "<h1>Hello ", Chunk.str "<World>", Chunk.str "!</h1>"] ∧
    iterZipC ["<h1>Hello ", "!</h1>"] [HValue.vstr "<World>"] =
      [Chunk.str "<h1>Hello ", Chunk.str "&lt;World&gt;", Chunk.str "!</h1>"] ∧
    toStrTpl ["<h1>Hello ", "!</h1>"] [HValue.vstr "<World>"] 0 =
      "<h1>Hello &lt;World&gt;!</h1>" ∧
    iterValueA (HValue.vraw "<span>") = [Chunk.str "<span>"] ∧
    yieldValueC (HValue.vraw "<span>") = [Chunk.str "<span>"] := by
  refine ⟨?_, ?_, ?_, ?_, ?_⟩
  · simp [iterZipA, iterZipAGo, iterValueA]
  · simp [iterZipC, yieldValueC]
    decide
  · simp [toStrTpl, toStrGo, toStrValue]
    decide
  · simp [iterValueA]
  · simp [yieldValueC]

/-- C5: composing three middleware that each write a pre-token, invoke their
continue callback, and write a post-token produces the onion order
`A-pre, B-pre, C-pre, C-post, B-post, A-post`; and when the middle
middleware never invokes its continue callback, downstream middleware never
runs while the upstream post-phase still does. -/
theorem C5_compose_onion_order (a1 a2 b1 b2 c1 c2 : String) :
    runChainLog
      [progMW [MAction.write a1, MAction.callNext, MAction.write a2],
       progMW [MAction.write b1, MAction.callNext, MAction.write b2],
       progMW [MAction.write c1, MAction.callNext, MAction.write c2]] =
      Except.ok [a1, b1, c1, c2, b2, a2] ∧
    runChainLog
      [progMW [MAction.write a1, MAction.callNext, MAction.write a2],
       progMW [MAction.write b1],
       progMW [MAction.write c1, MAction.callNext, MAction.write c2]] =
      Except.ok [a1, b1, a2] := by
  exact ⟨rfl, rfl⟩

/-- C7: the concrete boundary cases of `matchPath` for the prefixes `/foo`
and `/foo/`, and the general rule that a non-slash-terminated prefix only
matches when followed by `/` or end-of-string. -/
theorem C7_mount_boundary_matching :
    (matchPath "/foo" "/foo" = some "/" ∧
     matchPath "/foo" "/foo/" = some "/" ∧
     matchPath "/foo" "/foo/bar" = some "/bar" ∧
     matchPath "/foo" "/foobar" = none ∧
     matchPath "/foo" "/bar" = none ∧
     matchPath "/foo/" "/foo" = none ∧
     matchPath "/foo/" "/foo/" = some "/" ∧
     matchPath "/foo/" "/foo/bar" = some "/bar") ∧
    (∀ pre path : String, pre.data.getLast? ≠ some '/' →
      jsDrop path (jsLength pre) ≠ "" →
      (jsDrop path (jsLength pre)).data.head? ≠ some '/' →
      matchPath pre path = none) := by
  refine ⟨by decide, ?_⟩
  intro pre path h1 h2 h3
  unfold matchPath
  cases hs : jsStartsWith path pre with
  | false => simp [hs]
  | true => simp [hs, h1, h2, h3]

/-- C7 witness: the prefix `/x` does not match `/xy`, by the general
boundary rule. -/
theorem C7_mount_boundary_matching_witness :
    matchPath "/x" "/xy" = none :=
  C7_mount_boundary_matching.2 "/x" "/xy" (by decide) (by decide) (by decide)

/-- C9 counterexample: with headers already sent, the fault path of the
dispatch loop still overwrites the status code (there is no headers-sent
guard in the `catch` block of `App`'s request callback). -/
theorem C9_fault_after_headers_counterexample :
    (ServerRes.mk 200 true none ["partial"] false).headersSent = true ∧
    (appFaultPath false (AppFault.httpError 403 "Forbidden" none none)
        (ServerRes.mk 200 true none ["partial"] false)).statusCode = 403 ∧
    (appFaultPath false (AppFault.other "Oops" none)
        (ServerRes.mk 200 true none ["partial"] false)).statusCode = 500 := by
  exact ⟨rfl, rfl, rfl⟩

/-- C9 amended: the fault path assigns a status code unconditionally — the
`HttpError`'s own status, or 500 for any other error — regardless of the
headers-sent flag. -/
theorem C9_fault_status_unconditional
    (dev : Bool) (e : AppFault) (res : ServerRes) :
    (appFaultPath dev e res).statusCode =
      (match e with
       | AppFault.httpError st _ _ _ => st
       | AppFault.other _ _ => 500) := by
  cases e with
  | httpError st msg priv stack => cases dev <;> cases priv <;> cases stack <;> rfl
  | other msg stack => cases dev <;> rfl

/-- C6 counterexample: a single-middleware chain whose middleware invokes
its continue callback twice completes without any fault — the last
middleware's continue callback is the caller's terminal callback, which
`compose` leaves unguarded. -/
theorem C6_single_chain_counterexample :
    runChainLog [progMW doubleP] = Except.ok [] := rfl

/-- C2 counterexample: `toString()` differs from the concatenation of the
iteration chunks on synchronous nodes — indentation is rewritten only by
`toString` (first conjunct), and plain-string values are escaped only by
`toString` (second conjunct). -/
theorem C2_roundtrip_counterexample :
    toStrTpl ["\n  a\n"] [] 0 ≠ chunkStr (iterZipA ["\n  a\n"] []) ∧
    toStrTpl ["", ""] [HValue.vstr "<"] 0 ≠
      chunkStr (iterZipA ["", ""] [HValue.vstr "<"]) := by
  constructor
  · simp [toStrTpl, toStrGo, iterZipA, iterZipAGo, chunkStr]
    decide
  · simp [toStrTpl, toStrGo, toStrValue, iterZipA, iterZipAGo, iterValueA,
      chunkStr]
    decide

/-- C4 counterexample: in a segment whose lines are indented by 4 and then
2 columns, `toString` computes a shared indent of 4 — only the first matched
line of each segment is consulted — whereas the minimum over every non-empty
line is 2; the rendered output strips 4 columns accordingly. -/
theorem C4_minindent_counterexample :
    computeMinIndent ["\n    a\n  b"] = some 4 ∧
    specMinIndentAllLines ["\n    a\n  b"] = some 2 ∧
    toStrTpl ["\n    a\n  b"] [] 0 = "\na\nb" := by
  refine ⟨by decide, by decide, ?_⟩
  simp [toStrTpl, toStrGo]
  decide

/-- C8: for a matching mount, the wrapped middleware observes the remainder
subpath before and after its continue call; the upstream middleware (before
and after its own continue) and the downstream middleware reached through
the mount's continue observe the original outer path; and the final state
restores the outer path. -/
theorem C8_mount_path_restoration (pre path sub : String)
    (h : matchPath pre path = some sub) :
    runChainOn
      [progMW [MAction.logPath, MAction.callNext, MAction.logPath],
       mount pre (progMW [MAction.logPath, MAction.callNext, MAction.logPath]),
       progMW [MAction.logPath]] path =
    Except.ok ([path, sub, path, sub, path], path) := by
  simp [runChainOn, compose, buildNext, progMW, runProg, mount, terminalOk, h,
    Except.map]

theorem C8_mount_path_restoration_witness :
    runChainOn
      [progMW [MAction.logPath, MAction.callNext, MAction.logPath],
       mount "/foo/" (progMW [MAction.logPath, MAction.callNext, MAction.logPath]),
       progMW [MAction.logPath]] "/foo/bar" =
    Except.ok (["/foo/bar", "/bar", "/foo/bar", "/bar", "/foo/bar"],
               "/foo/bar") :=
  C8_mount_path_restoration "/foo/" "/foo/bar" "/bar" (by decide)

/-! ## Lemmas about the double-invocation guard -/

theorem onlyErr_terminalOk : OnlyErr terminalOk := by
  intro s e h
  simp [terminalOk] at h

theorem monoNext_terminalOk : MonoNext terminalOk := by
  intro s s' h i hi
  simp [terminalOk] at h
  subst h
  exact hi

theorem runProg_onlyErr (p : MProg) (next : NextFn) (hn : OnlyErr next) :
    ∀ s e, runProg p next s = Except.error e → e = doubleNextMsg := by
  induction p with
  | nil =>
      intro s e h
      simp [runProg] at h
  | cons a rest ih =>
      intro s e h
      cases a with
      | write t =>
          simp only [runProg] at h
          exact ih _ _ h
      | logPath =>
          simp only [runProg] at h
          exact ih _ _ h
      | callNext =>
          simp only [runProg] at h
          cases hns : next s with
          | ok s1 =>
              rw [hns] at h
              exact ih _ _ h
          | error e1 =>
              rw [hns] at h
              cases h
              exact hn _ _ hns

theorem runProg_mono (p : MProg) (next : NextFn) (hn : MonoNext next) :
    ∀ s s', runProg p next s = Except.ok s' →
      ∀ i, s.called i = true → s'.called i = true := by
  induction p with
  | nil =>
      intro s s' h i hi
      simp [runProg] at h
      subst h
      exact hi
  | cons a rest ih =>
      intro s s' h i hi
      cases a with
      | write t =>
          simp only [runProg] at h
          exact ih _ _ h i hi
      | logPath =>
          simp only [runProg] at h
          exact ih _ _ h i hi
      | callNext =>
          simp only [runProg] at h
          cases hns : next s with
          | ok s1 =>
              rw [hns] at h
              exact ih _ _ h i (hn _ _ hns i hi)
          | error e1 =>
              rw [hns] at h
              cases h

theorem buildNext_onlyErr (ps : List MProg) (t : NextFn) (ht : OnlyErr t) :
    ∀ k, OnlyErr (buildNext (ps.map progMW) k t) := by
  induction ps with
  | nil =>
      intro k
      simpa [buildNext] using ht
  | cons p ps ih =>
      intro k s e h
      simp only [List.map_cons, buildNext, progMW] at h
      by_cases hc : s.called k
      · rw [if_pos hc] at h
        cases h
        rfl
      · rw [if_neg hc] at h
        exact runProg_onlyErr p _ (ih (k + 1)) _ _ h

theorem buildNext_mono (ps : List MProg) (t : NextFn) (ht : MonoNext t) :
    ∀ k, MonoNext (buildNext (ps.map progMW) k t) := by
  induction ps with
  | nil =>
      intro k
      simpa [buildNext] using ht
  | cons p ps ih =>
      intro k s s' h i hi
      simp only [List.map_cons, buildNext, progMW] at h
      by_cases hc : s.called k
      · rw [if_pos hc] at h
        cases h
      · rw [if_neg hc] at h
        have hi2 : ({ s with
            called := fun i => if i = k then true else s.called i }).called i
              = true := by
          by_cases hik : i = k <;> simp [hik, hi]
        exact runProg_mono p _ (ih (k + 1)) _ _ h i hi2

theorem freshFrom_set (k : Nat) (s : ChainState) (h : FreshFrom k s) :
    FreshFrom (k + 1)
      { s with called := fun i => if i = k then true else s.called i } := by
  intro i hi
  have hik : i ≠ k := by omega
  simp only [hik, if_false]
  exact h i (by omega)

theorem reach_double (r : MProg) (rest : List MProg) :
    ∀ (j k : Nat) (t : NextFn) (s : ChainState),
      OnlyErr t → MonoNext t → FreshFrom k s →
      buildNext ((List.replicate j passP ++ doubleP :: r :: rest).map progMW)
        k t s = Except.error doubleNextMsg := by
  intro j
  induction j with
  | zero =>
      intro k t s hoe hmono hfresh
      have hc : s.called k = false := hfresh k (le_refl k)
      have hck1 : s.called (k + 1) = false := hfresh (k + 1) (Nat.le_succ k)
      simp only [List.replicate, List.nil_append, List.map_cons, buildNext,
        progMW, doubleP, runProg]
      rw [if_neg (by simp [hc])]
      rw [if_neg (by simp [hck1])]
      cases hr : runProg r (buildNext (rest.map progMW) (k + 1 + 1) t)
          { s with called := fun i => if i = k + 1 then true
              else if i = k then true else s.called i } with
      | error e =>
          have he : e = doubleNextMsg :=
            runProg_onlyErr r _ (buildNext_onlyErr rest t hoe (k + 1 + 1)) _ _ hr
          subst he
          rfl
      | ok s2 =>
          have hs2 : s2.called (k + 1) = true := by
            apply runProg_mono r _ (buildNext_mono rest t hmono (k + 1 + 1)) _ _
              hr (k + 1)
            simp
          simp [hs2]
  | succ j ih =>
      intro k t s hoe hmono hfresh
      have hc : s.called k = false := hfresh k (le_refl k)
      have hstep := ih (k + 1) t
        { s with called := fun i => if i = k then true else s.called i }
        hoe hmono (freshFrom_set k s hfresh)
      rw [show List.replicate (j + 1) passP ++ doubleP :: r :: rest =
            passP :: (List.replicate j passP ++ doubleP :: r :: rest) from by
          simp [List.replicate_succ]]
      simp only [List.map_cons, buildNext, progMW, passP, runProg]
      rw [if_neg (by simp [hc])]
      simp only [passP] at hstep
      rw [hstep]

/-! ## Lemmas about well-behaved chains (each continue invoked at most once) -/

theorem runProg_ok_noNext (p : MProg) :
    ∀ (next : NextFn) (s : ChainState), countNext p = 0 →
      ∃ s', runProg p next s = Except.ok s' := by
  induction p with
  | nil => exact fun next s _ => ⟨s, rfl⟩
  | cons a rest ih =>
      intro next s h
      cases a with
      | write t =>
          obtain ⟨s', hs⟩ := ih next { s with log := s.log ++ [t] }
            (by simpa [countNext] using h)
          exact ⟨s', by simpa [runProg] using hs⟩
      | logPath =>
          obtain ⟨s', hs⟩ := ih next { s with log := s.log ++ [s.path] }
            (by simpa [countNext] using h)
          exact ⟨s', by simpa [runProg] using hs⟩
      | callNext => simp [countNext] at h

theorem runProg_ok_le1 (p : MProg) :
    ∀ (k : Nat) (next : NextFn),
      (∀ s, FreshFrom k s → ∃ s', next s = Except.ok s') →
      ∀ s, FreshFrom k s → countNext p ≤ 1 →
      ∃ s', runProg p next s = Except.ok s' := by
  induction p with
  | nil => exact fun k next _ s _ _ => ⟨s, rfl⟩
  | cons a rest ih =>
      intro k next hn s hf hc
      cases a with
      | write t =>
          obtain ⟨s', hs⟩ := ih k next hn { s with log := s.log ++ [t] } hf
            (by simpa [countNext] using hc)
          exact ⟨s', by simpa [runProg] using hs⟩
      | logPath =>
          obtain ⟨s', hs⟩ := ih k next hn { s with log := s.log ++ [s.path] } hf
            (by simpa [countNext] using hc)
          exact ⟨s', by simpa [runProg] using hs⟩
      | callNext =>
          obtain ⟨s1, h1⟩ := hn s hf
          have hrest : countNext rest = 0 := by
            simp [countNext] at hc
            omega
          obtain ⟨s2, h2⟩ := runProg_ok_noNext rest next s1 hrest
          exact ⟨s2, by simp [runProg, h1, h2]⟩

theorem chain_ok (ps : List MProg) :
    ∀ (k : Nat) (t : NextFn), (∀ s, ∃ s', t s = Except.ok s') →
      (∀ p ∈ ps, countNext p ≤ 1) →
      ∀ s, FreshFrom k s →
      ∃ s', buildNext (ps.map progMW) k t s = Except.ok s' := by
  induction ps with
  | nil =>
      intro k t ht _ s _
      simpa [buildNext] using ht s
  | cons p ps ih =>
      intro k t ht hcnt s hf
      have hc : s.called k = false := hf k (le_refl k)
      obtain ⟨s', hs⟩ := runProg_ok_le1 p (k + 1)
        (buildNext (ps.map progMW) (k + 1) t)
        (fun s2 hf2 => ih (k + 1) t ht
          (fun q hq => hcnt q (List.mem_cons_of_mem _ hq)) s2 hf2)
        { s with called := fun i => if i = k then true else s.called i }
        (freshFrom_set k s hf)
        (hcnt p (List.mem_cons_self _ _))
      refine ⟨s', ?_⟩
      simp only [List.map_cons, buildNext, progMW]
      rw [if_neg (by simp [hc])]
      exact hs

/-! ## Second batch of claim theorems -/

/-- C6 amended: a middleware at any non-terminal position that invokes its
continue callback twice always raises the `next() called more than once`
fault (whatever follows it in the chain), while the last middleware's
continue callback is the caller's terminal callback, which `compose` leaves
unguarded (the counterexample); and middleware that invoke each continue at
most once never trigger the fault. -/
theorem C6_double_next_amended :
    (∀ (j : Nat) (r : MProg) (rest : List MProg),
      runChainLog ((List.replicate j passP ++ doubleP :: r :: rest).map progMW) =
        Except.error doubleNextMsg) ∧
    (∀ ps : List MProg, (∀ p ∈ ps, countNext p ≤ 1) →
      ∃ l, runChainLog (ps.map progMW) = Except.ok l) := by
  constructor
  · intro j r rest
    have h := reach_double r rest j 0 terminalOk
      { log := [], called := fun _ => false, path := "/" }
      onlyErr_terminalOk monoNext_terminalOk (fun i _ => rfl)
    have h2 : compose ((List.replicate j passP ++ doubleP :: r :: rest).map
          progMW) terminalOk ⟨[], fun _ => false, "/"⟩ =
        Except.error doubleNextMsg := by
      simp only [compose]
      exact h
    simp only [runChainLog, runChainOn]
    rw [h2]
    rfl
  · intro ps hcnt
    obtain ⟨s', hs⟩ := chain_ok ps 0 terminalOk (fun s => ⟨s, rfl⟩) hcnt
      { log := [], called := fun _ => false, path := "/" } (fun i _ => rfl)
    refine ⟨s'.log, ?_⟩
    have h2 : compose (ps.map progMW) terminalOk ⟨[], fun _ => false, "/"⟩ =
        Except.ok s' := by
      simp only [compose]
      exact hs
    simp only [runChainLog, runChainOn]
    rw [h2]
    rfl

/-- C6 witness: a double-invoking middleware followed by one more middleware
faults, and a two-middleware pass-through chain completes. -/
theorem C6_double_next_amended_witness :
    runChainLog ((List.replicate 0 passP ++ doubleP :: ([] : MProg) :: []).map
        progMW) = Except.error doubleNextMsg ∧
    ∃ l, runChainLog ([passP, passP].map progMW) = Except.ok l :=
  ⟨C6_double_next_amended.1 0 [] [],
   C6_double_next_amended.2 [passP, passP] (by decide)⟩

/-- C10: the `called` guards are created afresh inside each invocation of
the function returned by `compose`, so invoking the same composed function
any number of times in succession never raises the double-continue fault,
provided each middleware invokes each continue callback at most once per
invocation. -/
theorem C10_guard_scoped_per_invocation (ps : List MProg) (n : Nat)
    (s : ChainState) (h : ∀ p ∈ ps, countNext p ≤ 1) :
    ∃ s', iterateCompose (ps.map progMW) n s = Except.ok s' := by
  induction n generalizing s with
  | zero => exact ⟨s, rfl⟩
  | succ n ih =>
      obtain ⟨s1, h1⟩ := chain_ok ps 0 terminalOk (fun s2 => ⟨s2, rfl⟩) h
        { s with called := fun _ => false } (fun i _ => rfl)
      obtain ⟨s2, h2⟩ := ih s1
      refine ⟨s2, ?_⟩
      simp only [iterateCompose, compose]
      rw [h1]
      exact h2

/-- C10 witness: three successive invocations of a composed two-middleware
chain succeed. -/
theorem C10_guard_scoped_per_invocation_witness :
    ∃ s', iterateCompose ([passP, passP].map progMW) 3
      { log := [], called := fun _ => false, path := "/" } = Except.ok s' :=
  C10_guard_scoped_per_invocation [passP, passP] 3 _ (by decide)

/-! ## Lemmas about the indent minimum -/

theorem computeMinIndent_go (ss : List String) :
    ∀ acc : Option Nat,
      ss.foldl
        (fun acc s =>
          match firstIndentMatch s with
          | none => acc
          | some n =>
              match acc with
              | none => some n
              | some m => some (min m n)) acc
      = combineMin acc (minNatList (ss.filterMap firstIndentMatch)) := by
  induction ss with
  | nil =>
      intro acc
      cases acc <;> rfl
  | cons s ss ih =>
      intro acc
      simp only [List.foldl_cons, List.filterMap_cons]
      cases hm : firstIndentMatch s with
      | none => simpa [hm] using ih acc
      | some n =>
          simp only [hm]
          rw [ih _]
          cases acc with
          | none =>
              cases hr : minNatList (List.filterMap firstIndentMatch ss) <;>
                simp [combineMin, minNatList, hr]
          | some m =>
              cases hr : minNatList (List.filterMap firstIndentMatch ss) <;>
                simp [combineMin, minNatList, hr]

theorem firstIndentMatchAux_none_of_no_newline :
    ∀ l : List Char, (∀ c ∈ l, c ≠ '\n') → firstIndentMatchAux l = none := by
  intro l h
  induction l with
  | nil => rfl
  | cons c cs ih =>
      simp only [firstIndentMatchAux]
      rw [if_neg (h c (List.mem_cons_self _ _))]
      exact ih fun d hd => h d (List.mem_cons_of_mem _ hd)

/-- C4 amended: the shared indent `toString` strips is computed once,
globally, as the minimum over the literal segments of the indentation of the
FIRST non-empty line following a newline within each segment (later lines of
a segment are not consulted); a segment with no newline has no such line and
contributes nothing to the minimum. -/
theorem C4_minindent_amended :
    (∀ ss : List String,
      computeMinIndent ss = minNatList (ss.filterMap firstIndentMatch)) ∧
    (∀ s : String, (∀ c ∈ s.data, c ≠ '\n') → firstIndentMatch s = none) := by
  constructor
  · intro ss
    simpa [computeMinIndent, combineMin] using computeMinIndent_go ss none
  · intro s h
    exact firstIndentMatchAux_none_of_no_newline s.data h

/-- C4 witness: a segment with no newline contributes nothing, and the fold
agrees with the global first-line minimum on a concrete node. -/
theorem C4_minindent_amended_witness :
    computeMinIndent ["<p>", "\n  x"] =
      minNatList (["<p>", "\n  x"].filterMap firstIndentMatch) ∧
    firstIndentMatch "<p>" = none :=
  ⟨C4_minindent_amended.1 ["<p>", "\n  x"],
   C4_minindent_amended.2 "<p>" (by decide)⟩

/-! ## The structural round-trip on the safe fragment -/

theorem chunkStr_append (a b : List Chunk) :
    chunkStr (a ++ b) = chunkStr a ++ chunkStr b := by
  induction a with
  | nil => simp [chunkStr]
  | cons c cs ih =>
      cases c <;> simp [chunkStr, ih, String.append_assoc]

theorem computeMinIndent_none (ss : List String)
    (h : ∀ s ∈ ss, firstIndentMatch s = none) :
    computeMinIndent ss = none := by
  have hnil : ss.filterMap firstIndentMatch = [] := by
    simp [List.filterMap_eq_nil_iff]
    exact h
  simpa [computeMinIndent, hnil, combineMin, minNatList] using
    computeMinIndent_go ss none

mutual

theorem rt_value (v : HValue) (h : RTSafeV v) (ind : Nat) :
    toStrValue v ind = chunkStr (iterValueA v) := by
  cases h with
  | null => simp [toStrValue, iterValueA, chunkStr]
  | raw s => simp [toStrValue, iterValueA, chunkStr]
  | tpl ss vs hn hlen hle1 hl =>
      have hrec := rt_tpl ss vs hn hlen hle1 hl ind
      simpa [toStrValue, iterValueA, iterZipA] using hrec
  | arr vs hl =>
      have hrec := rt_list vs hl 0
      simpa [toStrValue, iterValueA] using hrec
termination_by sizeOf v

theorem rt_list (vs : List HValue) (h : RTSafeL vs) (i : Nat) :
    toStrList vs i = chunkStr (iterListA vs) := by
  cases h with
  | nil => simp [toStrList, iterListA, chunkStr]
  | @cons v vs' hv hl =>
      have h1 := rt_value v hv i
      have h2 := rt_list vs' hl (i + 1)
      simp [toStrList, iterListA, chunkStr_append, h1, h2]
termination_by sizeOf vs

theorem rt_tpl (ss : List String) (vs : List HValue)
    (hn : ∀ s ∈ ss, firstIndentMatch s = none)
    (hlen : ss.length = vs.length + 1) (hle1 : vs.length ≤ 1)
    (hl : RTSafeL vs) (ind : Nat) :
    toStrTpl ss vs ind = chunkStr (iterZipA ss vs) := by
  have hmin : computeMinIndent ss = none := computeMinIndent_none _ hn
  cases hl with
  | nil =>
      match ss, hlen with
      | [s0], _ =>
          simp [toStrTpl, toStrGo, hmin, fixIndent, iterZipA, iterZipAGo,
            chunkStr]
  | @cons v vs' hv hl' =>
      have hnil : vs' = [] := by
        cases vs' with
        | nil => rfl
        | cons _ _ => simp at hle1
      subst hnil
      match ss, hlen with
      | [s0, s1], _ =>
          have h1 := rt_value v hv ind
          have hs0 : firstIndentMatch s0 = none :=
            hn s0 (List.mem_cons_self _ _)
          simp [toStrTpl, toStrGo, hmin, hs0, fixIndent, iterZipA, iterZipAGo,
            chunkStr, chunkStr_append, h1, String.append_assoc]
termination_by sizeOf ss + sizeOf vs

end

/-- C2 amended: on nodes with no asynchronous values, the string-rendering
path equals the concatenation of the lazy-sequence chunks PROVIDED the node
(recursively) has no literal segment with an indentation match (so
`toString`'s indent rewriting is the identity), interpolates only
null-ish values, unsafe-marked strings, nested such templates, and
arrays/iterables of these — no plain strings and no other
`String(value)`-coerced values, which `toString` escapes but the
`HTMLIterator` yields raw — and every template frame (the node and each
nested template, though not arrays) carries at most one value, because the
`HTMLIterator`'s done test `index > container.values.length` truncates the
traversal of any frame with two or more values while `toString` renders
everything. -/
theorem C2_roundtrip_amended (ss : List String) (vs : List HValue) (ind : Nat)
    (hn : ∀ s ∈ ss, firstIndentMatch s = none)
    (hlen : ss.length = vs.length + 1) (hle1 : vs.length ≤ 1)
    (hl : RTSafeL vs) :
    toStrTpl ss vs ind = chunkStr (iterZipA ss vs) :=
  rt_tpl ss vs hn hlen hle1 hl ind

/-- C2 witness: the two render paths agree on
`html`<h1>${unsafeHTML('<b>hi</b>')}</h1>``. -/
theorem C2_roundtrip_amended_witness :
    toStrTpl ["<h1>", "</h1>"] [HValue.vraw "<b>hi</b>"] 0 =
      chunkStr (iterZipA ["<h1>", "</h1>"] [HValue.vraw "<b>hi</b>"]) :=
  C2_roundtrip_amended ["<h1>", "</h1>"] [HValue.vraw "<b>hi</b>"] 0
    (by decide) (by decide) (by decide)
    (RTSafeL.cons (RTSafeV.raw "<b>hi</b>") RTSafeL.nil)

end Zipadee
